import Mathlib

/-!
Verification of the ralpha repository core: the cached task source
(`src/cli/src/tasks/cached-task-source.ts`) and the Copilot engine adapter
(the unnamed engine module).  Each TypeScript method is embedded as a pure
Lean function; the mutable fields of `CachedTaskSource` become a state
record threaded explicitly.
-/

set_option maxHeartbeats 1000000

/-- A task record: identifier, title, completion flag and optional
parallel-group number, as in the Task data model. -/
structure RTask where
  id : String
  title : String
  completed : Bool
  parallelGroup : Option Nat
deriving DecidableEq

/-- The wrapped (inner) task source, abstracted by its observable behavior:
the task list it returns, whether a given `markComplete(id)` write fails
(throws), whether it supports the optional `getTasksInGroup` capability,
the group contents it reports, and whether it is a `YamlTaskSource`
(with its `getParallelGroup` answer). -/
structure InnerSource where
  tasks : List RTask
  completedCount : Nat
  failsOn : String → Bool
  supportsGroups : Bool
  groupTasks : Nat → List RTask
  isYaml : Bool
  parallelGroupOf : String → Nat

/-- The mutable state of one `CachedTaskSource` instance.  `innerWrites` is
the trace of `inner.markComplete(id)` calls that completed successfully,
in call order (it models the durable state of the wrapped source). -/
structure CachedState where
  inner : InnerSource
  innerWrites : List String
  cachedTasks : Option (List RTask)
  pendingCompletions : List String
  flushTimerArmed : Bool
  flushIntervalMs : Nat
  isShuttingDown : Bool

/-- JavaScript `Set.add`: appends the element if absent (insertion order is
preserved, duplicates are dropped). -/
def setAdd (l : List String) (x : String) : List String :=
  if x ∈ l then l else l ++ [x]

/-- `CachedTaskSource.getAllTasks` (lines 65-71): populate the cache from
the inner source when absent, then return the cache filtered to exclude
ids in the pending-completion set.  Returns the result together with the
updated state. -/
def getAllTasksRun (st : CachedState) : List RTask × CachedState :=
  let cached := match st.cachedTasks with
    | some ts => ts
    | none => st.inner.tasks
  let st1 := { st with cachedTasks := some cached }
  (cached.filter (fun t => decide (t.id ∉ st.pendingCompletions)), st1)

/-- `CachedTaskSource.scheduleFlush` (lines 154-169): arm the debounce
timer unless auto-flush is disabled or a timer is already armed. -/
def scheduleFlush (st : CachedState) : CachedState :=
  if st.flushIntervalMs = 0 then st
  else if st.flushTimerArmed then st
  else { st with flushTimerArmed := true }

/-- `CachedTaskSource.markComplete` (lines 78-81): add the id to the
pending-completion set and arm the debounce timer. -/
def markComplete (st : CachedState) (id : String) : CachedState :=
  scheduleFlush { st with pendingCompletions := setAdd st.pendingCompletions id }

/-- The write loop inside `flush` (lines 130-132): write each pending id
to the inner source in order; a failing write throws, aborting the loop.
Returns the ids successfully written before the abort and whether the
whole loop completed. -/
def writeAll (fails : String → Bool) : List String → List String × Bool
  | [] => ([], true)
  | id :: rest =>
    if fails id then ([], false)
    else
      let (w, ok) := writeAll fails rest
      (id :: w, ok)

/-- `CachedTaskSource.flush` (lines 119-137): clear the timer; if nothing
is pending return immediately; otherwise write each pending id to the
inner source.  On success clear the pending set and invalidate the cache;
on a failing write the exception propagates, so the pending set and the
cache are left untouched.  Returns (new state, written ids, success). -/
def flush (st : CachedState) : CachedState × List String × Bool :=
  let st1 := { st with flushTimerArmed := false }
  if st1.pendingCompletions.isEmpty then (st1, [], true)
  else
    let (w, ok) := writeAll st1.inner.failsOn st1.pendingCompletions
    if ok then
      ({ st1 with innerWrites := st1.innerWrites ++ w,
                  pendingCompletions := [],
                  cachedTasks := none }, w, true)
    else
      ({ st1 with innerWrites := st1.innerWrites ++ w }, w, false)

/-- `CachedTaskSource.hasPendingWrites` (lines 150-152). -/
def hasPendingWrites (st : CachedState) : Bool :=
  !st.pendingCompletions.isEmpty

/-- `CachedTaskSource.flushSync` (lines 175-192): if the instance is
already shutting down, do nothing; otherwise set the flag and attempt a
best-effort synchronous write of every pending id, ignoring per-id
failures.  The pending set and the cache are not modified.  Returns the
new state and the list of ids whose write was attempted. -/
def flushSync (st : CachedState) : CachedState × List String :=
  if st.isShuttingDown then (st, [])
  else
    let st1 := { st with isShuttingDown := true }
    if st1.pendingCompletions.isEmpty then (st1, [])
    else
      ({ st1 with innerWrites :=
          st1.innerWrites ++ st1.pendingCompletions.filter (fun i => !(st1.inner.failsOn i)) },
       st1.pendingCompletions)

/-- `CachedTaskSource.getTasksInGroup` (lines 97-103): throws when the
inner source lacks the capability, otherwise delegates and filters out
pending completions. -/
def getTasksInGroup (st : CachedState) (g : Nat) : Except (List Char) (List RTask) :=
  if st.inner.supportsGroups then
    .ok ((st.inner.groupTasks g).filter (fun t => decide (t.id ∉ st.pendingCompletions)))
  else
    .error ("Inner task source does not support getTasksInGroup".toList)

/-- `CachedTaskSource.getParallelGroup` (lines 108-113): returns 0 when
the inner source is not a `YamlTaskSource`, otherwise delegates. -/
def getParallelGroup (st : CachedState) (title : String) : Except (List Char) Nat :=
  if st.inner.isYaml then .ok (st.inner.parallelGroupOf title)
  else .ok 0

/-- One operation of the public mutating/reading interface, used to state
invariants over arbitrary call sequences. -/
inductive CacheOp where
  | mark (id : String)
  | doFlush
  | readAll
  | readGroup (g : Nat)

/-- Apply one operation to the state (read operations keep only their
state effect). -/
def applyOp (st : CachedState) : CacheOp → CachedState
  | .mark id => markComplete st id
  | .doFlush => (flush st).1
  | .readAll => (getAllTasksRun st).2
  | .readGroup _ => st

/-- Run a sequence of operations. -/
def runOps (st : CachedState) (ops : List CacheOp) : CachedState :=
  ops.foldl applyOp st

/-- Concrete inner source used in witnesses: two tasks, no failures,
group support, not YAML. -/
def innerW : InnerSource :=
  { tasks := [⟨"a", "A", false, none⟩, ⟨"b", "B", false, none⟩]
    completedCount := 0
    failsOn := fun _ => false
    supportsGroups := true
    groupTasks := fun _ => [⟨"a", "A", false, none⟩, ⟨"b", "B", false, none⟩]
    isYaml := false
    parallelGroupOf := fun _ => 7 }

/-- Concrete cached state used in witnesses. -/
def stW : CachedState :=
  { inner := innerW
    innerWrites := []
    cachedTasks := none
    pendingCompletions := []
    flushTimerArmed := false
    flushIntervalMs := 1000
    isShuttingDown := false }

/-- Concrete inner source whose write fails exactly on id `"b"`. -/
def innerFailB : InnerSource :=
  { innerW with failsOn := fun s => s == "b" }

/-- Concrete state with three pending completions, the middle one failing. -/
def stFailB : CachedState :=
  { stW with inner := innerFailB
             cachedTasks := some innerW.tasks
             pendingCompletions := ["a", "b", "c"] }

/-- Concrete state with a populated cache and an empty pending set. -/
def stCached : CachedState :=
  { stW with cachedTasks := some innerW.tasks }

/-! ## Engine adapter: text helpers -/

/-- The whitespace set used by JavaScript for both `\s` in regexes and
`String.prototype.trim` (ECMA WhiteSpace plus LineTerminator). -/
def isJsWs (c : Char) : Bool :=
  c = ' ' || c = '\t' || c = '\n' || c = '\x0b' || c = '\x0c' || c = '\r' ||
  c = '\u00a0' || c = '\u1680' || ('\u2000' ≤ c && c ≤ '\u200a') ||
  c = '\u2028' || c = '\u2029' || c = '\u202f' || c = '\u205f' ||
  c = '\u3000' || c = '\ufeff'

/-- The regex replace `\r?\n` with a single space: a `\r\n` pair or a lone
`\n` becomes one space (a lone `\r` is untouched here). -/
def replaceNewlines : List Char → List Char
  | [] => []
  | '\r' :: '\n' :: rest => ' ' :: replaceNewlines rest
  | '\n' :: rest => ' ' :: replaceNewlines rest
  | c :: rest => c :: replaceNewlines rest

/-- The regex replace `\s+` with a single space, single pass.  The flag
records whether the previous character was whitespace (so a run emits
exactly one space). -/
def collapseWsAux : Bool → List Char → List Char
  | _, [] => []
  | prevWs, c :: rest =>
    if isJsWs c then
      if prevWs then collapseWsAux true rest
      else ' ' :: collapseWsAux true rest
    else c :: collapseWsAux false rest

/-- `replace(/\s+/g, " ")`. -/
def collapseWs (s : List Char) : List Char :=
  collapseWsAux false s

/-- Drop trailing JavaScript whitespace (the right half of `trim()`). -/
def trimRight : List Char → List Char
  | [] => []
  | c :: rest =>
    match trimRight rest with
    | [] => if isJsWs c then [] else [c]
    | r => c :: r

/-- JavaScript `String.prototype.trim`. -/
def trimL (s : List Char) : List Char :=
  trimRight (s.dropWhile isJsWs)

/-- Global replace of one character by a character sequence, mirroring
one `replace(/x/g, "...")` step. -/
def replaceChar (target : Char) (repl : List Char) : List Char → List Char
  | [] => []
  | c :: rest => (if c = target then repl else [c]) ++ replaceChar target repl rest

/-- The Windows escaping block of `sanitizePrompt` (lines 32-38): the six
sequential global replaces, in source order (carets first, quote doubling
last). -/
def winEscape (s : List Char) : List Char :=
  replaceChar '"' ['"', '"']
    (replaceChar '|' ['^', '|']
      (replaceChar '>' ['^', '>']
        (replaceChar '<' ['^', '<']
          (replaceChar '&' ['^', '&']
            (replaceChar '^' ['^', '^'] s)))))

/-- The intended per-character Windows escape: each special character maps
to its escaped form, each other character to itself. -/
def winEscapeChar (c : Char) : List Char :=
  if c = '^' then ['^', '^']
  else if c = '&' then ['^', '&']
  else if c = '<' then ['^', '<']
  else if c = '>' then ['^', '>']
  else if c = '|' then ['^', '|']
  else if c = '"' then ['"', '"']
  else [c]

/-- Single-pass escape of a whole string by `winEscapeChar`. -/
def escAll : List Char → List Char
  | [] => []
  | c :: rest => winEscapeChar c ++ escAll rest

/-- `CopilotEngine.sanitizePrompt` (lines 25-42): flatten newlines,
collapse whitespace runs, trim, and on Windows apply the caret escapes. -/
def sanitizePrompt (isWindows : Bool) (prompt : List Char) : List Char :=
  let sanitized := trimL (collapseWs (replaceNewlines prompt))
  if isWindows then winEscape sanitized else sanitized

/-- Whether a string contains two consecutive spaces. -/
def hasDoubleSpace : List Char → Bool
  | [] => false
  | [_] => false
  | a :: b :: rest => (a = ' ' && b = ' ') || hasDoubleSpace (b :: rest)

/-- Whether the first character is a space. -/
def headSpace : List Char → Bool
  | [] => false
  | c :: _ => c = ' '

/-- Whether the last character is a space. -/
def lastSpace : List Char → Bool
  | [] => false
  | [c] => c = ' '
  | _ :: c :: rest => lastSpace (c :: rest)

/-! ## Engine adapter: error classification -/

/-- Lowercasing as used by `toLowerCase()` (ASCII-relevant part). -/
def toLowerL (s : List Char) : List Char :=
  s.map Char.toLower

/-- Boolean prefix test on character lists. -/
def isPrefixL : List Char → List Char → Bool
  | [], _ => true
  | _ :: _, [] => false
  | a :: as, b :: bs => a = b && isPrefixL as bs

/-- Boolean substring test (`String.prototype.includes`). -/
def hasSub (hay needle : List Char) : Bool :=
  match hay with
  | [] => isPrefixL needle []
  | _ :: rest => isPrefixL needle hay || hasSub rest needle

/-- Characters that the regex metacharacter `.` does not match
(JavaScript line terminators). -/
def isLineTerm (c : Char) : Bool :=
  c = '\n' || c = '\r' || c = '\u2028' || c = '\u2029'

/-- The lazy group `(.+?)(?:\n|$)`: starting at the given characters,
collect at least one non-line-terminator character, stopping as soon as a
`\n` or the end of input follows; fail if a non-`\n` line terminator is
reached before that. -/
def grabSeg : List Char → Option (List Char)
  | [] => none
  | c :: rest =>
    if isLineTerm c then none
    else
      match rest with
      | [] => some [c]
      | d :: _ =>
        if d = '\n' then some [c]
        else
          match grabSeg rest with
          | some g => some (c :: g)
          | none => none

/-- Backtracking over the greedy `\s*`: try the start offsets from the
longest whitespace prefix down to zero, keeping the first success. -/
def tryStarts : Nat → List Char → Option (List Char)
  | 0, r => grabSeg r
  | Nat.succ k, r =>
    match grabSeg (r.drop (k + 1)) with
    | some g => some g
    | none => tryStarts k r

/-- Matching `\s*(.+?)(?:\n|$)` against the text following `error:`. -/
def matchTail (r : List Char) : Option (List Char) :=
  tryStarts (r.takeWhile isJsWs).length r

/-- The needle `error:` of the generic error regex. -/
def errKey : List Char := "error:".toList

/-- The full regex `/error:\s*(.+?)(?:\n|$)/i`: scan left to right for a
case-insensitive `error:` whose tail admits a match of the rest of the
pattern, and return the captured group. -/
def findErrorMatch (s : List Char) : Option (List Char) :=
  match s with
  | [] => none
  | _ :: rest =>
    if isPrefixL errKey (toLowerL s) then
      match matchTail (s.drop 6) with
      | some g => some g
      | none => findErrorMatch rest
    else findErrorMatch rest

/-- The authentication error message of `checkCopilotErrors`. -/
def authMsg : List Char :=
  "GitHub Copilot CLI is not authenticated. Run \x27copilot\x27 and use \x27/login\x27 to authenticate, or set COPILOT_GITHUB_TOKEN environment variable.".toList

/-- The rate-limit error message of `checkCopilotErrors`. -/
def rateMsg : List Char :=
  "GitHub Copilot rate limit exceeded. Please wait and try again.".toList

/-- The network error message of `checkCopilotErrors`. -/
def netMsg : List Char :=
  "Network error connecting to GitHub Copilot. Check your internet connection.".toList

/-- The fallback message of the generic `error:` branch. -/
def genericCopilotMsg : List Char :=
  "GitHub Copilot CLI returned an error".toList

/-- `CopilotEngine.checkCopilotErrors` (lines 137-167): keyword checks for
authentication, rate-limit and network errors, then the generic `error:`
detection guarded by a line-start-or-after-newline test, extracting the
trimmed remainder of that line via the regex. -/
def checkCopilotErrors (output : List Char) : Option (List Char) :=
  let lower := toLowerL output
  let trimmed := trimL output
  if hasSub lower ("no authentication".toList) || hasSub lower ("not authenticated".toList) then
    some authMsg
  else if hasSub lower ("rate limit".toList) || hasSub lower ("too many requests".toList) then
    some rateMsg
  else if hasSub lower ("network error".toList) || hasSub lower ("connection refused".toList) then
    some netMsg
  else if isPrefixL errKey (toLowerL trimmed) || hasSub lower ("\nerror:".toList) then
    match findErrorMatch output with
    | some g => some (trimL g)
    | none => some genericCopilotMsg
  else none

/-- The JSON error payload key searched for by the structured check. -/
def jsonErrKey : List Char := "\x7b\"error\":\"".toList

/-- Collect characters up to the closing double quote. -/
def grabQuoted : List Char → List Char
  | [] => []
  | '"' :: _ => []
  | c :: rest => c :: grabQuoted rest

/-- Modelled from the spec: `checkForErrors` from the shared engine base
module, which is not among the provided sources.  Per the spec it detects
a generic structured (JSON) error payload anywhere in the output and
short-circuits with its message; modelled as locating the first
`\x7b"error":"<message>"` payload and returning the message. -/
def checkForErrors (output : List Char) : Option (List Char) :=
  match output with
  | [] => none
  | _ :: rest =>
    if isPrefixL jsonErrKey output then some (grabQuoted (output.drop 10))
    else checkForErrors rest

/-- Modelled from the spec: `formatCommandError` from the shared engine
base module, which is not among the provided sources.  Per the spec it
formats a generic "command failed with code N" message including the
captured output. -/
def formatCommandError (exitCode : Int) (output : List Char) : List Char :=
  "Command failed with code ".toList ++ (toString exitCode).toList ++ ": ".toList ++ output

/-- JavaScript truthiness of a nullable string: `null` and the empty
string are falsy. -/
def truthyOpt : Option (List Char) → Bool
  | some (_ :: _) => true
  | _ => false

/-- The `AIResult` record: outcome of one engine invocation. -/
structure AIResult where
  success : Bool
  response : List Char
  inputTokens : Nat
  outputTokens : Nat
  cost : Option (List Char) := none
  error : Option (List Char) := none
deriving DecidableEq

/-- Split a string into lines at `\n` (JavaScript `split("\n")`). -/
def splitLines : List Char → List (List Char)
  | [] => [[]]
  | '\n' :: rest => [] :: splitLines rest
  | c :: rest =>
    match splitLines rest with
    | [] => [[c]]
    | l :: ls => (c :: l) :: ls

/-- Join lines with `\n` (JavaScript `join("\n")`). -/
def joinNl : List (List Char) → List Char
  | [] => []
  | [l] => l
  | l :: ls => l ++ '\n' :: joinNl ls

/-- The per-line filter predicate of `parseOutput` (lines 177-186): keep a
line when its trimmed form is nonempty, is not an interactive prompt or
command-prompt artifact, and is not a status message. -/
def meaningfulLine (line : List Char) : Bool :=
  let trimmed := trimL line
  !trimmed.isEmpty &&
  !isPrefixL ("?".toList) trimmed &&
  !isPrefixL ("‚ùØ".toList) trimmed &&
  !hasSub trimmed ("Thinking...".toList) &&
  !hasSub trimmed ("Working on it...".toList)

/-- `CopilotEngine.parseOutput` (lines 169-189): drop empty lines and CLI
artifacts, rejoin, and fall back to a placeholder when nothing remains. -/
def parseOutput (output : List Char) : List Char :=
  let lines := (splitLines output).filter (fun l => !l.isEmpty)
  let meaningfulLines := lines.filter meaningfulLine
  match joinNl meaningfulLines with
  | [] => "Task completed".toList
  | r => r

/-- Modelled from the spec: the observable outcome of `execCommand` from
the shared engine base module, which is not among the provided sources.
Per the spec the command runner captures stdout and stderr separately and
reports the exit code; spawn failures are reported through the same shape
rather than thrown. -/
structure ExecOutcome where
  stdout : List Char
  stderr : List Char
  exitCode : Int
deriving DecidableEq

/-- The shared classification pipeline of `CopilotEngine.execute` (lines
84-130) operating on the combined output text: structured JSON error
first, then Copilot-specific plain-text errors, then the non-zero exit
code, and otherwise a successful result with the parsed response. -/
def copilotClassify (output : List Char) (exitCode : Int) (durationMs : Nat) : AIResult :=
  let jsonError := checkForErrors output
  if truthyOpt jsonError then
    { success := false, response := [], inputTokens := 0, outputTokens := 0,
      error := jsonError }
  else
    let copilotError := checkCopilotErrors output
    if truthyOpt copilotError then
      { success := false, response := [], inputTokens := 0, outputTokens := 0,
        error := copilotError }
    else
      let response := parseOutput output
      if exitCode ≠ 0 then
        { success := false, response := response, inputTokens := 0, outputTokens := 0,
          error := some (formatCommandError exitCode output) }
      else
        { success := true, response := response, inputTokens := 0, outputTokens := 0,
          cost := if durationMs > 0 then
              some ("duration:".toList ++ (toString durationMs).toList)
            else none }

/-- `CopilotEngine.execute` (lines 73-131): run the subprocess, combine
stdout and stderr, and classify. -/
def copilotExecute (o : ExecOutcome) (durationMs : Nat) : AIResult :=
  copilotClassify (o.stdout ++ o.stderr) o.exitCode durationMs

/-- Modelled from the spec: `detectStepFromOutput` from the shared engine
base module, which is not among the provided sources.  Per the spec it
classifies a line of streamed output into a coarse current-step label
(reading code, implementing, testing) by keyword, or none. -/
def detectStepFromOutput (line : List Char) : Option (List Char) :=
  let lower := toLowerL line
  if hasSub lower ("read".toList) then some ("Reading code".toList)
  else if hasSub lower ("implement".toList) then some ("Implementing".toList)
  else if hasSub lower ("test".toList) then some ("Testing".toList)
  else none

/-- An event observable by the caller of `executeStreaming`: a progress
callback invocation or the production of the final result. -/
inductive StreamEvent where
  | progress (step : List Char)
  | result (r : AIResult)
deriving DecidableEq

/-- One line-callback step of `executeStreaming` (lines 206-214): buffer
the line and, when a step is detected, fire `onProgress`. -/
def streamLineStep (acc : List (List Char) × List StreamEvent) (line : List Char) :
    List (List Char) × List StreamEvent :=
  (acc.1 ++ [line],
   acc.2 ++ (match detectStepFromOutput line with
     | some s => [StreamEvent.progress s]
     | none => []))

/-- `CopilotEngine.executeStreaming` (lines 191-265): process each output
line through the callback, then join the buffered lines and run the same
classification as `execute`.  Returns the full event trace (progress
invocations in occurrence order followed by the final result) together
with the result. -/
def executeStreaming (lines : List (List Char)) (exitCode : Int) (durationMs : Nat) :
    List StreamEvent × AIResult :=
  let (outputLines, events) := lines.foldl streamLineStep ([], [])
  let r := copilotClassify (joinNl outputLines) exitCode durationMs
  (events ++ [StreamEvent.result r], r)

/-- Concrete state whose inner source lacks both optional capabilities. -/
def stNoCaps : CachedState :=
  { stW with inner := { innerW with supportsGroups := false, isYaml := false } }

/-! ## Theorems: cached task source -/

theorem markComplete_fields (st : CachedState) (id : String) :
    (markComplete st id).pendingCompletions = setAdd st.pendingCompletions id ∧
    (markComplete st id).inner = st.inner ∧
    (markComplete st id).cachedTasks = st.cachedTasks := by
  unfold markComplete scheduleFlush
  split
  · exact ⟨rfl, rfl, rfl⟩
  · split <;> exact ⟨rfl, rfl, rfl⟩

theorem foldl_markComplete_fields (ids : List String) (st : CachedState) :
    (ids.foldl markComplete st).pendingCompletions =
      ids.foldl setAdd st.pendingCompletions ∧
    (ids.foldl markComplete st).inner = st.inner ∧
    (ids.foldl markComplete st).cachedTasks = st.cachedTasks := by
  induction ids generalizing st with
  | nil => exact ⟨rfl, rfl, rfl⟩
  | cons i rest ih =>
    obtain ⟨h1, h2, h3⟩ := markComplete_fields st i
    obtain ⟨g1, g2, g3⟩ := ih (markComplete st i)
    refine ⟨?_, ?_, ?_⟩
    · simpa [h1] using g1
    · simpa [h2] using g2
    · simpa [h3] using g3

theorem mem_foldl_setAdd (ids : List String) (acc : List String) (x : String) :
    x ∈ ids.foldl setAdd acc ↔ x ∈ acc ∨ x ∈ ids := by
  induction ids generalizing acc with
  | nil => simp
  | cons i rest ih =>
    show x ∈ rest.foldl setAdd (setAdd acc i) ↔ _
    rw [ih]
    unfold setAdd
    split
    · constructor
      · rintro (h | h)
        · exact Or.inl h
        · exact Or.inr (List.mem_cons_of_mem _ h)
      · rintro (h | h)
        · exact Or.inl h
        · rcases List.mem_cons.1 h with rfl | h
          · next hmem => exact Or.inl hmem
          · exact Or.inr h
    · simp [or_assoc, List.mem_cons]

theorem nodup_foldl_setAdd (ids : List String) (acc : List String)
    (h : acc.Nodup) : (ids.foldl setAdd acc).Nodup := by
  induction ids generalizing acc with
  | nil => exact h
  | cons i rest ih =>
    apply ih
    unfold setAdd
    split
    · exact h
    · next hni => exact (List.nodup_append_comm.2 (by simpa using ⟨hni, h⟩))

theorem writeAll_all_ok (fails : String → Bool) (l : List String)
    (h : ∀ i ∈ l, fails i = false) : writeAll fails l = (l, true) := by
  induction l with
  | nil => rfl
  | cons x rest ih =>
    have hx := h x (List.mem_cons_self x rest)
    have hr := ih (fun i hi => h i (List.mem_cons_of_mem x hi))
    simp [writeAll, hx, hr]

theorem writeAll_of_exists_fail (fails : String → Bool) (l : List String)
    (h : ∃ i ∈ l, fails i = true) :
    writeAll fails l = (l.takeWhile (fun i => !fails i), false) := by
  induction l with
  | nil => simp at h
  | cons x rest ih =>
    by_cases hx : fails x = true
    · simp [writeAll, hx, List.takeWhile]
    · obtain ⟨i, hi, hf⟩ := h
      rcases List.mem_cons.1 hi with rfl | hi2
      · exact absurd hf hx
      · have hr := ih ⟨i, hi2, hf⟩
        have hxb : fails x = false := by simpa using hx
        simp [writeAll, hxb, hr, List.takeWhile]

/-- C1: after any sequence of markComplete, flush and read operations on a
CachedTaskSource, a task whose id is in the pending-completion set never
appears in the result of getAllTasks nor in any getTasksInGroup result. -/
theorem pending_excluded_from_reads (st0 : CachedState) (ops : List CacheOp) (t : RTask)
    (h : t.id ∈ (runOps st0 ops).pendingCompletions) :
    t ∉ (getAllTasksRun (runOps st0 ops)).1 ∧
    ∀ g ts, getTasksInGroup (runOps st0 ops) g = Except.ok ts → t ∉ ts := by
  set st := runOps st0 ops with hst
  constructor
  · intro hmem
    have hp : decide (t.id ∉ st.pendingCompletions) = true := by
      have hm : t ∈ (match st.cachedTasks with
        | some ts => ts
        | none => st.inner.tasks).filter
          (fun u : RTask => decide (u.id ∉ st.pendingCompletions)) := by
        simpa [getAllTasksRun] using hmem
      exact (List.mem_filter.1 hm).2
    exact of_decide_eq_true hp h
  · intro g ts hok hmem
    unfold getTasksInGroup at hok
    split at hok
    · cases hok
      have hp := List.of_mem_filter hmem
      exact of_decide_eq_true hp h
    · cases hok

/-- C1 witness: marking task "a" complete excludes it from both reads. -/
theorem pending_excluded_from_reads_witness :
    (⟨"a", "A", false, none⟩ : RTask) ∉ (getAllTasksRun (runOps stW [CacheOp.mark "a"])).1 ∧
    ∀ g ts, getTasksInGroup (runOps stW [CacheOp.mark "a"]) g = Except.ok ts →
      (⟨"a", "A", false, none⟩ : RTask) ∉ ts :=
  pending_excluded_from_reads stW [CacheOp.mark "a"] ⟨"a", "A", false, none⟩ (by decide)

/-- C2 counterexample: with an empty markComplete sequence and a populated
cache, a successful flush leaves the cache populated, so the claimed
unconditional cache invalidation fails for the empty sequence. -/
theorem flush_empty_keeps_cache_cex :
    (flush (([] : List String).foldl markComplete stCached)).2.2 = true ∧
    (flush (([] : List String).foldl markComplete stCached)).1.cachedTasks ≠ none := by
  constructor
  · rfl
  · intro h
    simp [flush, stCached, stW, innerW, List.foldl] at h

/-- C2 (amended): for every nonempty sequence of markComplete calls
followed by one successful flush, the wrapped source's markComplete is
invoked exactly once per distinct id in the sequence, and afterwards
hasPendingWrites is false and the cache is invalidated (with an empty
sequence the flush is a no-op and a populated cache is kept). -/
theorem flush_after_marks_amended (st0 : CachedState) (ids : List String)
    (hpend : st0.pendingCompletions = [])
    (hok : ∀ i ∈ ids, st0.inner.failsOn i = false)
    (hne : ids ≠ []) :
    (flush (ids.foldl markComplete st0)).2.2 = true ∧
    (flush (ids.foldl markComplete st0)).2.1.Nodup ∧
    (∀ x, x ∈ (flush (ids.foldl markComplete st0)).2.1 ↔ x ∈ ids) ∧
    hasPendingWrites (flush (ids.foldl markComplete st0)).1 = false ∧
    (flush (ids.foldl markComplete st0)).1.cachedTasks = none := by
  obtain ⟨hp, hi, _⟩ := foldl_markComplete_fields ids st0
  set stm := ids.foldl markComplete st0 with hstm
  have hpm : stm.pendingCompletions = ids.foldl setAdd [] := by rw [hp, hpend]
  have hnodup : stm.pendingCompletions.Nodup := by
    rw [hpm]; exact nodup_foldl_setAdd ids [] List.nodup_nil
  have hmem : ∀ x, x ∈ stm.pendingCompletions ↔ x ∈ ids := by
    intro x; rw [hpm, mem_foldl_setAdd]; simp
  have hnonempty : stm.pendingCompletions ≠ [] := by
    intro heq
    obtain ⟨i, hi2⟩ := List.exists_mem_of_ne_nil ids hne
    have := (hmem i).2 hi2
    rw [heq] at this
    simp at this
  have hie : stm.pendingCompletions.isEmpty = false := by
    cases hc : stm.pendingCompletions with
    | nil => exact absurd hc hnonempty
    | cons a l => rfl
  have hwa : writeAll stm.inner.failsOn stm.pendingCompletions =
      (stm.pendingCompletions, true) := by
    apply writeAll_all_ok
    intro i hi2
    rw [hi]
    exact hok i ((hmem i).1 hi2)
  unfold flush
  simp only [hie, Bool.false_eq_true, if_false, hwa]
  refine ⟨rfl, hnodup, hmem, ?_, rfl⟩
  simp [hasPendingWrites]

/-- C2 witness: marking "a", "b", "a" then flushing writes each distinct
id once and leaves no pending writes and no cache. -/
theorem flush_after_marks_amended_witness :
    (flush (["a", "b", "a"].foldl markComplete stW)).2.2 = true ∧
    (flush (["a", "b", "a"].foldl markComplete stW)).2.1.Nodup ∧
    (∀ x, x ∈ (flush (["a", "b", "a"].foldl markComplete stW)).2.1 ↔ x ∈ ["a", "b", "a"]) ∧
    hasPendingWrites (flush (["a", "b", "a"].foldl markComplete stW)).1 = false ∧
    (flush (["a", "b", "a"].foldl markComplete stW)).1.cachedTasks = none :=
  flush_after_marks_amended stW ["a", "b", "a"] (by decide) (by decide) (by decide)

/-- C3: when a backend write fails during a normal flush, the flush aborts
(only the ids strictly before the first failing one were written), the
pending-completion set is not cleared (every not-durably-written id is
still pending), and the cache is not invalidated. -/
theorem flush_failure_preserves_pending (st : CachedState)
    (h : ∃ i ∈ st.pendingCompletions, st.inner.failsOn i = true) :
    (flush st).2.2 = false ∧
    (flush st).1.pendingCompletions = st.pendingCompletions ∧
    (flush st).1.cachedTasks = st.cachedTasks ∧
    (flush st).2.1 = st.pendingCompletions.takeWhile (fun i => !st.inner.failsOn i) := by
  have hne : st.pendingCompletions ≠ [] := by
    rintro heq
    rw [heq] at h
    simp at h
  have hie : st.pendingCompletions.isEmpty = false := by
    cases hc : st.pendingCompletions with
    | nil => exact absurd hc hne
    | cons a l => rfl
  have hw := writeAll_of_exists_fail st.inner.failsOn st.pendingCompletions h
  unfold flush
  simp [hie, hw]

/-- C3 witness: with pending ["a", "b", "c"] and the backend failing on
"b", flush aborts, writes only "a", and keeps all three ids pending and
the cache populated. -/
theorem flush_failure_preserves_pending_witness :
    (flush stFailB).2.2 = false ∧
    (flush stFailB).1.pendingCompletions = ["a", "b", "c"] ∧
    (flush stFailB).1.cachedTasks = some innerW.tasks ∧
    (flush stFailB).2.1 = ["a"] := by
  have h := flush_failure_preserves_pending stFailB ⟨"b", by decide, by decide⟩
  refine ⟨h.1, ?_, ?_, ?_⟩
  · rw [h.2.1]; decide
  · rw [h.2.2.1]; decide
  · rw [h.2.2.2]; decide

theorem flushSync_shuttingDown (st : CachedState) :
    (flushSync st).1.isShuttingDown = true := by
  unfold flushSync
  split
  · next h => exact h
  · dsimp only
    split <;> rfl

/-- C7: the shutdown flush is idempotent per instance: a second flushSync
on the same instance attempts no durable write and leaves the state
unchanged. -/
theorem flushSync_idempotent (st : CachedState) :
    (flushSync (flushSync st).1).2 = [] ∧
    (flushSync (flushSync st).1).1 = (flushSync st).1 := by
  have h := flushSync_shuttingDown st
  rw [flushSync, if_pos h]
  exact ⟨rfl, rfl⟩

/-- C10: flushSync changes none of the in-memory wrapper state except the
shutting-down flag: the pending set, the cache, the timer, the interval
and the inner source are untouched, and hasPendingWrites is preserved. -/
theorem flushSync_frame (st : CachedState) :
    ((flushSync st).1).pendingCompletions = st.pendingCompletions ∧
    ((flushSync st).1).cachedTasks = st.cachedTasks ∧
    ((flushSync st).1).flushTimerArmed = st.flushTimerArmed ∧
    ((flushSync st).1).flushIntervalMs = st.flushIntervalMs ∧
    ((flushSync st).1).inner = st.inner ∧
    ((flushSync st).1).isShuttingDown = true ∧
    hasPendingWrites (flushSync st).1 = hasPendingWrites st := by
  unfold flushSync
  split
  · next h => exact ⟨rfl, rfl, rfl, rfl, rfl, h, rfl⟩
  · dsimp only
    split <;> exact ⟨rfl, rfl, rfl, rfl, rfl, rfl, rfl⟩

/-- C8 counterexample: on a wrapped source that is not a YamlTaskSource,
getParallelGroup does not fail explicitly: it silently returns the
default value 0. -/
theorem getParallelGroup_default_cex :
    stNoCaps.inner.isYaml = false ∧
    getParallelGroup stNoCaps "any title" = Except.ok 0 ∧
    ∀ e, getParallelGroup stNoCaps "any title" ≠ Except.error e := by
  refine ⟨rfl, rfl, ?_⟩
  intro e h
  cases h

/-- C8 (amended): getTasksInGroup fails explicitly (with a nonempty error)
when the wrapped source lacks the capability, but getParallelGroup on a
wrapped source that is not a YamlTaskSource silently returns the default
value 0 instead of failing. -/
theorem optional_capability_amended (st : CachedState) (g : Nat) (title : String)
    (h1 : st.inner.supportsGroups = false) (h2 : st.inner.isYaml = false) :
    (∃ e, getTasksInGroup st g = Except.error e ∧ e ≠ []) ∧
    getParallelGroup st title = Except.ok 0 := by
  constructor
  · refine ⟨"Inner task source does not support getTasksInGroup".toList, ?_, ?_⟩
    · unfold getTasksInGroup
      rw [if_neg (by simp [h1])]
    · decide
  · unfold getParallelGroup
    rw [if_neg (by simp [h2])]

/-- C8 witness: the amended statement at the capability-free state. -/
theorem optional_capability_amended_witness :
    (∃ e, getTasksInGroup stNoCaps 0 = Except.error e ∧ e ≠ []) ∧
    getParallelGroup stNoCaps "t" = Except.ok 0 :=
  optional_capability_amended stNoCaps 0 "t" (by decide) (by decide)

/-! ## Theorems: prompt sanitization -/

theorem hds_cons_eq (c : Char) (l : List Char) :
    hasDoubleSpace (c :: l) = ((decide (c = ' ') && headSpace l) || hasDoubleSpace l) := by
  cases l with
  | nil => simp [hasDoubleSpace, headSpace]
  | cons d l' => simp [hasDoubleSpace, headSpace]

theorem hds_cons_false (c : Char) (l : List Char)
    (h : hasDoubleSpace (c :: l) = false) :
    (decide (c = ' ') && headSpace l) = false ∧ hasDoubleSpace l = false := by
  rw [hds_cons_eq] at h
  exact ⟨(Bool.or_eq_false_iff.1 h).1, (Bool.or_eq_false_iff.1 h).2⟩

theorem headSpace_append_ne (l m : List Char) (h : l ≠ []) :
    headSpace (l ++ m) = headSpace l := by
  cases l with
  | nil => exact absurd rfl h
  | cons c l' => rfl

theorem hds_append (u v : List Char) (hu : hasDoubleSpace u = false)
    (hv : hasDoubleSpace v = false)
    (hb : lastSpace u = false ∨ headSpace v = false) :
    hasDoubleSpace (u ++ v) = false := by
  induction u with
  | nil => simpa using hv
  | cons c u' ih =>
    obtain ⟨h1, h2⟩ := hds_cons_false c u' hu
    rw [List.cons_append, hds_cons_eq]
    cases u' with
    | nil =>
      simp only [List.nil_append]
      rcases hb with hb | hb
      · simp only [lastSpace] at hb
        simp [hb, hv]
      · simp [hb, hv]
    | cons d u'' =>
      have hb' : lastSpace (d :: u'') = false ∨ headSpace v = false := by
        rcases hb with hb | hb
        · exact Or.inl hb
        · exact Or.inr hb
      have hrec := ih h2 hb'
      rw [headSpace_append_ne (d :: u'') v (by simp)]
      simp only [headSpace] at h1 ⊢
      rw [h1, Bool.false_or]
      exact hrec

theorem collapseWsAux_props (s : List Char) :
    (∀ b, hasDoubleSpace (collapseWsAux b s) = false) ∧
    headSpace (collapseWsAux true s) = false := by
  induction s with
  | nil => exact ⟨fun _ => rfl, rfl⟩
  | cons c rest ih =>
    obtain ⟨ih1, ih2⟩ := ih
    by_cases hc : isJsWs c = true
    · refine ⟨?_, ?_⟩
      · intro b
        cases b
        · show hasDoubleSpace (collapseWsAux false (c :: rest)) = false
          simp only [collapseWsAux, hc, if_true, Bool.false_eq_true, if_false]
          rw [hds_cons_eq]
          simp [ih1 true, ih2]
        · simpa [collapseWsAux, hc] using ih1 true
      · simpa [collapseWsAux, hc] using ih2
    · have hc' : isJsWs c = false := by simpa using hc
      have hcs : decide (c = ' ') = false := by
        apply decide_eq_false
        intro heq
        rw [heq] at hc'
        simp [isJsWs] at hc'
      refine ⟨?_, ?_⟩
      · intro b
        simp only [collapseWsAux, hc', Bool.false_eq_true, if_false]
        rw [hds_cons_eq]
        simp [hcs, ih1 false]
      · simp only [collapseWsAux, hc', Bool.false_eq_true, if_false]
        simp [headSpace, hcs]

theorem mem_collapseWsAux (x : Char) (s : List Char) :
    ∀ b, x ∈ collapseWsAux b s → x = ' ' ∨ (x ∈ s ∧ isJsWs x = false) := by
  induction s with
  | nil => intro b h; simp [collapseWsAux] at h
  | cons c rest ih =>
    intro b h
    by_cases hc : isJsWs c = true
    · cases b
      · simp only [collapseWsAux, hc, if_true, Bool.false_eq_true, if_false] at h
        rcases List.mem_cons.1 h with rfl | h2
        · exact Or.inl rfl
        · rcases ih true h2 with h3 | ⟨h3, h4⟩
          · exact Or.inl h3
          · exact Or.inr ⟨List.mem_cons_of_mem c h3, h4⟩
      · simp only [collapseWsAux, hc, if_true] at h
        rcases ih true h with h3 | ⟨h3, h4⟩
        · exact Or.inl h3
        · exact Or.inr ⟨List.mem_cons_of_mem c h3, h4⟩
    · have hc' : isJsWs c = false := by simpa using hc
      simp only [collapseWsAux, hc', Bool.false_eq_true, if_false] at h
      rcases List.mem_cons.1 h with rfl | h2
      · exact Or.inr ⟨List.mem_cons_self _ _, hc'⟩
      · rcases ih false h2 with h3 | ⟨h3, h4⟩
        · exact Or.inl h3
        · exact Or.inr ⟨List.mem_cons_of_mem c h3, h4⟩

theorem mem_of_dropWhile (p : Char → Bool) (x : Char) (l : List Char)
    (h : x ∈ l.dropWhile p) : x ∈ l := by
  induction l with
  | nil => simp at h
  | cons c rest ih =>
    rw [List.dropWhile_cons] at h
    split at h
    · exact List.mem_cons_of_mem c (ih h)
    · exact h

theorem hds_dropWhile (p : Char → Bool) (l : List Char)
    (h : hasDoubleSpace l = false) : hasDoubleSpace (l.dropWhile p) = false := by
  induction l with
  | nil => exact h
  | cons c rest ih =>
    rw [List.dropWhile_cons]
    split
    · exact ih (hds_cons_false c rest h).2
    · exact h

theorem trimRight_head (l : List Char) (d : Char) (r : List Char)
    (h : trimRight l = d :: r) : ∃ tl, l = d :: tl := by
  cases l with
  | nil => simp [trimRight] at h
  | cons c rest =>
    unfold trimRight at h
    rcases htr : trimRight rest with _ | ⟨e, r'⟩
    · rw [htr] at h
      dsimp at h
      split at h
      · cases h
      · rw [List.cons.injEq] at h
        exact ⟨rest, by rw [h.1]⟩
    · rw [htr] at h
      dsimp at h
      rw [List.cons.injEq] at h
      exact ⟨rest, by rw [h.1]⟩

theorem hds_trimRight (l : List Char) (h : hasDoubleSpace l = false) :
    hasDoubleSpace (trimRight l) = false := by
  induction l with
  | nil => exact h
  | cons c rest ih =>
    obtain ⟨h1, h2⟩ := hds_cons_false c rest h
    unfold trimRight
    rcases htr : trimRight rest with _ | ⟨d, r'⟩
    · dsimp
      split <;> rfl
    · dsimp
      have hrest := ih h2
      rw [htr] at hrest
      rw [hds_cons_eq]
      obtain ⟨tl, htl⟩ := trimRight_head rest d r' htr
      rw [htl] at h1
      simp only [headSpace] at h1 ⊢
      simp [h1, hrest]

theorem mem_trimRight (x : Char) (l : List Char) (h : x ∈ trimRight l) : x ∈ l := by
  induction l with
  | nil => simp [trimRight] at h
  | cons c rest ih =>
    unfold trimRight at h
    rcases htr : trimRight rest with _ | ⟨d, r'⟩
    · rw [htr] at h
      dsimp at h
      split at h
      · simp at h
      · rcases List.mem_singleton.1 h with rfl
        exact List.mem_cons_self x rest
    · rw [htr] at h
      dsimp at h
      rcases List.mem_cons.1 h with rfl | h2
      · exact List.mem_cons_self x rest
      · rw [← htr] at h2
        exact List.mem_cons_of_mem c (ih h2)

theorem replaceChar_append (t : Char) (r : List Char) (a b : List Char) :
    replaceChar t r (a ++ b) = replaceChar t r a ++ replaceChar t r b := by
  induction a with
  | nil => rfl
  | cons c a' ih => simp [replaceChar, ih]

theorem winEscape_append (a b : List Char) :
    winEscape (a ++ b) = winEscape a ++ winEscape b := by
  simp [winEscape, replaceChar_append]

theorem winEscape_singleton (c : Char) : winEscape [c] = winEscapeChar c := by
  unfold winEscapeChar
  by_cases h1 : c = '^'
  · subst h1; decide
  · rw [if_neg h1]
    by_cases h2 : c = '&'
    · subst h2; decide
    · rw [if_neg h2]
      by_cases h3 : c = '<'
      · subst h3; decide
      · rw [if_neg h3]
        by_cases h4 : c = '>'
        · subst h4; decide
        · rw [if_neg h4]
          by_cases h5 : c = '|'
          · subst h5; decide
          · rw [if_neg h5]
            by_cases h6 : c = '"'
            · subst h6; decide
            · rw [if_neg h6]
              simp [winEscape, replaceChar, h1, h2, h3, h4, h5, h6]

theorem winEscape_eq_escAll (s : List Char) : winEscape s = escAll s := by
  induction s with
  | nil => rfl
  | cons c s' ih =>
    have : (c :: s') = [c] ++ s' := rfl
    rw [this, winEscape_append, winEscape_singleton, ih]
    rfl

theorem mem_winEscapeChar (x c : Char) (h : x ∈ winEscapeChar c) :
    x = c ∨ x = '^' ∨ x = '"' := by
  unfold winEscapeChar at h
  split_ifs at h with h1 h2 h3 h4 h5 h6
  · simp at h
    exact Or.inr (Or.inl h)
  · simp at h
    rcases h with rfl | rfl
    · exact Or.inr (Or.inl rfl)
    · exact Or.inl h2.symm
  · simp at h
    rcases h with rfl | rfl
    · exact Or.inr (Or.inl rfl)
    · exact Or.inl h3.symm
  · simp at h
    rcases h with rfl | rfl
    · exact Or.inr (Or.inl rfl)
    · exact Or.inl h4.symm
  · simp at h
    rcases h with rfl | rfl
    · exact Or.inr (Or.inl rfl)
    · exact Or.inl h5.symm
  · simp at h
    exact Or.inr (Or.inr h)
  · simp at h
    exact Or.inl h

theorem mem_escAll (x : Char) (s : List Char) (h : x ∈ escAll s) :
    x ∈ s ∨ x = '^' ∨ x = '"' := by
  induction s with
  | nil => simp [escAll] at h
  | cons c s' ih =>
    rcases List.mem_append.1 h with h2 | h2
    · rcases mem_winEscapeChar x c h2 with rfl | h3
      · exact Or.inl (List.mem_cons_self _ _)
      · exact Or.inr h3
    · rcases ih h2 with h3 | h3
      · exact Or.inl (List.mem_cons_of_mem c h3)
      · exact Or.inr h3

theorem winEscapeChar_props (c : Char) :
    hasDoubleSpace (winEscapeChar c) = false ∧
    headSpace (winEscapeChar c) = decide (c = ' ') ∧
    lastSpace (winEscapeChar c) = decide (c = ' ') ∧
    winEscapeChar c ≠ [] := by
  unfold winEscapeChar
  split_ifs with h1 h2 h3 h4 h5 h6
  · subst h1; refine ⟨rfl, by decide, by decide, by decide⟩
  · subst h2; refine ⟨rfl, by decide, by decide, by decide⟩
  · subst h3; refine ⟨rfl, by decide, by decide, by decide⟩
  · subst h4; refine ⟨rfl, by decide, by decide, by decide⟩
  · subst h5; refine ⟨rfl, by decide, by decide, by decide⟩
  · subst h6; refine ⟨rfl, by decide, by decide, by decide⟩
  · exact ⟨rfl, rfl, rfl, by simp⟩

theorem headSpace_escAll (s : List Char) : headSpace (escAll s) = headSpace s := by
  cases s with
  | nil => rfl
  | cons c s' =>
    show headSpace (winEscapeChar c ++ escAll s') = headSpace (c :: s')
    rw [headSpace_append_ne _ _ (winEscapeChar_props c).2.2.2,
        (winEscapeChar_props c).2.1]
    rfl

theorem hds_escAll (s : List Char) (h : hasDoubleSpace s = false) :
    hasDoubleSpace (escAll s) = false := by
  induction s with
  | nil => exact h
  | cons c s' ih =>
    obtain ⟨h1, h2⟩ := hds_cons_false c s' h
    show hasDoubleSpace (winEscapeChar c ++ escAll s') = false
    apply hds_append
    · exact (winEscapeChar_props c).1
    · exact ih h2
    · rw [(winEscapeChar_props c).2.2.1, headSpace_escAll]
      rcases Bool.and_eq_false_iff.1 h1 with h3 | h3
      · exact Or.inl h3
      · exact Or.inr h3

/-- C5: for every prompt, the sanitized prompt contains no newline and no
carriage return and no run of more than one consecutive space, both off
and on Windows; and the Windows escaping equals the intended one-pass
per-character escape (caret, ampersand, less-than, greater-than, pipe,
then quote doubling), so carets introduced by later escapes are never
themselves re-escaped. -/
theorem sanitizePrompt_contract (p : List Char) :
    ('\n' ∉ sanitizePrompt false p ∧ '\r' ∉ sanitizePrompt false p ∧
      hasDoubleSpace (sanitizePrompt false p) = false) ∧
    ('\n' ∉ sanitizePrompt true p ∧ '\r' ∉ sanitizePrompt true p ∧
      hasDoubleSpace (sanitizePrompt true p) = false) ∧
    sanitizePrompt true p = escAll (sanitizePrompt false p) := by
  have hfalse : sanitizePrompt false p = trimL (collapseWs (replaceNewlines p)) := rfl
  have htrue : sanitizePrompt true p =
      winEscape (trimL (collapseWs (replaceNewlines p))) := rfl
  rw [hfalse, htrue, winEscape_eq_escAll]
  set s0 := trimL (collapseWs (replaceNewlines p)) with hs0
  have hmem : ∀ x, x ∈ s0 → x = ' ' ∨ isJsWs x = false := by
    intro x hx
    have hx1 : x ∈ (collapseWs (replaceNewlines p)).dropWhile isJsWs :=
      mem_trimRight x _ hx
    have hx2 : x ∈ collapseWs (replaceNewlines p) := mem_of_dropWhile _ _ _ hx1
    rcases mem_collapseWsAux x (replaceNewlines p) false hx2 with h | ⟨_, h⟩
    · exact Or.inl h
    · exact Or.inr h
  have hnl : '\n' ∉ s0 := by
    intro h
    rcases hmem '\n' h with h2 | h2
    · exact absurd h2 (by decide)
    · exact absurd h2 (by decide)
  have hcr : '\r' ∉ s0 := by
    intro h
    rcases hmem '\r' h with h2 | h2
    · exact absurd h2 (by decide)
    · exact absurd h2 (by decide)
  have hds0 : hasDoubleSpace s0 = false := by
    apply hds_trimRight
    apply hds_dropWhile
    exact (collapseWsAux_props (replaceNewlines p)).1 false
  refine ⟨⟨hnl, hcr, hds0⟩, ⟨?_, ?_, ?_⟩, rfl⟩
  · intro h
    rcases mem_escAll _ _ h with h2 | h2 | h2
    · exact hnl h2
    · exact absurd h2 (by decide)
    · exact absurd h2 (by decide)
  · intro h
    rcases mem_escAll _ _ h with h2 | h2 | h2
    · exact hcr h2
    · exact absurd h2 (by decide)
    · exact absurd h2 (by decide)
  · exact hds_escAll s0 hds0

/-! ## Theorems: engine adapter -/

/-- C4: execute never propagates subprocess failures to its caller: a
non-zero exit code always yields a returned result with success = false,
and every non-successful result carries a nonempty human-readable error
message. -/
theorem execute_failure_contract (o : ExecOutcome) (d : Nat) :
    (o.exitCode ≠ 0 → (copilotExecute o d).success = false) ∧
    ((copilotExecute o d).success = false →
      ∃ e, (copilotExecute o d).error = some e ∧ e ≠ []) := by
  unfold copilotExecute copilotClassify
  by_cases hj : truthyOpt (checkForErrors (o.stdout ++ o.stderr)) = true
  · rw [if_pos hj]
    refine ⟨fun _ => rfl, fun _ => ?_⟩
    rcases ho : checkForErrors (o.stdout ++ o.stderr) with _ | e
    · rw [ho] at hj
      simp [truthyOpt] at hj
    · cases e with
      | nil =>
        rw [ho] at hj
        simp [truthyOpt] at hj
      | cons a e' =>
        exact ⟨a :: e', rfl, by simp⟩
  · rw [if_neg hj]
    by_cases hc : truthyOpt (checkCopilotErrors (o.stdout ++ o.stderr)) = true
    · rw [if_pos hc]
      refine ⟨fun _ => rfl, fun _ => ?_⟩
      rcases ho : checkCopilotErrors (o.stdout ++ o.stderr) with _ | e
      · rw [ho] at hc
        simp [truthyOpt] at hc
      · cases e with
        | nil =>
          rw [ho] at hc
          simp [truthyOpt] at hc
        | cons a e' =>
          exact ⟨a :: e', rfl, by simp⟩
    · rw [if_neg hc]
      by_cases hz : o.exitCode ≠ 0
      · rw [if_pos hz]
        refine ⟨fun _ => rfl, fun _ => ?_⟩
        refine ⟨formatCommandError o.exitCode (o.stdout ++ o.stderr), rfl, ?_⟩
        unfold formatCommandError
        simp
      · rw [if_neg hz]
        exact ⟨fun h => absurd h hz, fun h => by cases h⟩

/-- C4 witness: a failing exit code on concrete output yields a failed
result with a nonempty error. -/
theorem execute_failure_contract_witness :
    (copilotExecute ⟨"boom".toList, [], 2⟩ 0).success = false ∧
    ∃ e, (copilotExecute ⟨"boom".toList, [], 2⟩ 0).error = some e ∧ e ≠ [] := by
  have h := execute_failure_contract ⟨"boom".toList, [], 2⟩ 0
  have hs := h.1 (by decide)
  exact ⟨hs, h.2 hs⟩

theorem foldl_streamLineStep (lines : List (List Char)) (accL : List (List Char))
    (accE : List StreamEvent) :
    lines.foldl streamLineStep (accL, accE) =
      (accL ++ lines,
       accE ++ (lines.filterMap detectStepFromOutput).map StreamEvent.progress) := by
  induction lines generalizing accL accE with
  | nil => simp
  | cons l rest ih =>
    rw [List.foldl_cons]
    show rest.foldl streamLineStep
        (accL ++ [l], accE ++ (match detectStepFromOutput l with
          | some s => [StreamEvent.progress s]
          | none => [])) = _
    rw [ih]
    cases hd : detectStepFromOutput l <;>
      simp [hd, List.filterMap_cons]

theorem executeStreaming_eq (lines : List (List Char)) (ec : Int) (d : Nat) :
    executeStreaming lines ec d =
      (((lines.filterMap detectStepFromOutput).map StreamEvent.progress) ++
        [StreamEvent.result (copilotClassify (joinNl lines) ec d)],
       copilotClassify (joinNl lines) ec d) := by
  unfold executeStreaming
  rw [foldl_streamLineStep]
  simp

/-- C9: every onProgress invocation of executeStreaming happens strictly
before the final result is produced and never after: the event trace is
exactly the progress events, in output-line order, followed by the single
final result, and the result event occurring in the trace is unique. -/
theorem executeStreaming_trace_shape (lines : List (List Char)) (ec : Int) (d : Nat) :
    (executeStreaming lines ec d).1 =
      ((lines.filterMap detectStepFromOutput).map StreamEvent.progress) ++
        [StreamEvent.result (executeStreaming lines ec d).2] ∧
    ∀ x, StreamEvent.result x ∈ (executeStreaming lines ec d).1 ↔
      x = (executeStreaming lines ec d).2 := by
  rw [executeStreaming_eq]
  refine ⟨rfl, ?_⟩
  intro x
  constructor
  · intro hx
    rcases List.mem_append.1 hx with hx | hx
    · rcases List.mem_map.1 hx with ⟨s, _, hs⟩
      cases hs
    · have := List.mem_singleton.1 hx
      injection this with h
  · rintro rfl
    exact List.mem_append.2 (Or.inr (List.mem_singleton.2 rfl))

theorem trimRight_append (a b : List Char) :
    trimRight (a ++ b) = (match trimRight b with
      | [] => trimRight a
      | r => a ++ r) := by
  induction a with
  | nil =>
    rcases htb : trimRight b with _ | ⟨d, r'⟩
    · simpa using htb
    · simpa using htb
  | cons c a' ih =>
    have hstep : trimRight ((c :: a') ++ b) =
        (match trimRight (a' ++ b) with
          | [] => if isJsWs c = true then [] else [c]
          | r => c :: r) := rfl
    rw [hstep, ih]
    rcases htb : trimRight b with _ | ⟨d, r'⟩
    · dsimp only
      rfl
    · dsimp only
      cases a' with
      | nil => rfl
      | cons e a'' => rfl

theorem isPrefixL_append_of (n h e : List Char) (hp : isPrefixL n h = true) :
    isPrefixL n (h ++ e) = true := by
  induction n generalizing h with
  | nil => rfl
  | cons a n' ih =>
    cases h with
    | nil => simp [isPrefixL] at hp
    | cons b h' =>
      simp only [isPrefixL, Bool.and_eq_true] at hp
      simp only [List.cons_append, isPrefixL, Bool.and_eq_true]
      exact ⟨hp.1, ih h' hp.2⟩

/-- C6 counterexample: an output containing the line "Error: disk full"
(after a newline) but also a rate-limit keyword is classified by the
higher-priority rate-limit branch, so execute's error is the rate-limit
message and not "disk full"; the unconditional claim fails. -/
theorem error_line_priority_cex :
    (copilotExecute ⟨"rate limit\nError: disk full\n".toList, [], 0⟩ 0).error =
      some rateMsg ∧ rateMsg ≠ "disk full".toList := by
  constructor
  · decide
  · decide

theorem hasSub_cons (c : Char) (r n : List Char) :
    hasSub (c :: r) n = (isPrefixL n (c :: r) || hasSub r n) := rfl

theorem hasSub_append_right (a b n : List Char) (h : hasSub b n = true) :
    hasSub (a ++ b) n = true := by
  induction a with
  | nil => simpa using h
  | cons c a' ih =>
    rw [List.cons_append, hasSub_cons, ih]
    simp

theorem findErrorMatch_append (pre post : List Char)
    (h : ∀ suf ∈ List.tails pre, suf ≠ [] →
      isPrefixL errKey (toLowerL (suf ++ post)) = false) :
    findErrorMatch (pre ++ post) = findErrorMatch post := by
  induction pre with
  | nil => rfl
  | cons c pre' ih =>
    have hc := h (c :: pre') ((List.mem_tails _ _).2 ⟨[], rfl⟩) (by simp)
    rw [List.cons_append] at hc
    have hstep : findErrorMatch ((c :: pre') ++ post) =
        (if isPrefixL errKey (toLowerL (c :: (pre' ++ post))) = true then
          (match matchTail ((c :: (pre' ++ post)).drop 6) with
            | some g => some g
            | none => findErrorMatch (pre' ++ post))
        else findErrorMatch (pre' ++ post)) := rfl
    rw [hstep, if_neg (by rw [hc]; exact Bool.false_ne_true)]
    refine ih (fun suf hs hne => h suf ?_ hne)
    refine (List.mem_tails _ _).2 ?_
    obtain ⟨u, hu⟩ := (List.mem_tails _ _).1 hs
    exact ⟨c :: u, by rw [List.cons_append, hu]⟩

theorem checkCopilotErrors_diskFull (pre tail0 : List Char)
    (hpos : pre = [] ∨ ∃ pre', pre = pre' ++ ['\n'])
    (h1 : hasSub (toLowerL (pre ++ ("Error: disk full\n".toList ++ tail0)))
      ("no authentication".toList) = false)
    (h2 : hasSub (toLowerL (pre ++ ("Error: disk full\n".toList ++ tail0)))
      ("not authenticated".toList) = false)
    (h3 : hasSub (toLowerL (pre ++ ("Error: disk full\n".toList ++ tail0)))
      ("rate limit".toList) = false)
    (h4 : hasSub (toLowerL (pre ++ ("Error: disk full\n".toList ++ tail0)))
      ("too many requests".toList) = false)
    (h5 : hasSub (toLowerL (pre ++ ("Error: disk full\n".toList ++ tail0)))
      ("network error".toList) = false)
    (h6 : hasSub (toLowerL (pre ++ ("Error: disk full\n".toList ++ tail0)))
      ("connection refused".toList) = false)
    (hfirst : ∀ suf ∈ List.tails pre, suf ≠ [] →
      isPrefixL errKey (toLowerL (suf ++ ("Error: disk full\n".toList ++ tail0))) = false) :
    checkCopilotErrors (pre ++ ("Error: disk full\n".toList ++ tail0)) =
      some ("disk full".toList) := by
  have hguard : (isPrefixL errKey
        (toLowerL (trimL (pre ++ ("Error: disk full\n".toList ++ tail0)))) ||
      hasSub (toLowerL (pre ++ ("Error: disk full\n".toList ++ tail0)))
        ("\nerror:".toList)) = true := by
    rcases hpos with rfl | ⟨pre', rfl⟩
    · simp only [List.nil_append]
      rw [Bool.or_eq_true]
      refine Or.inl ?_
      have hdw : List.dropWhile isJsWs ("Error: disk full\n".toList ++ tail0) =
          "Error: disk full\n".toList ++ tail0 := rfl
      have hsplit : ("Error: disk full\n".toList ++ tail0) =
          "Error: disk full".toList ++ ('\n' :: tail0) := rfl
      unfold trimL
      rw [hdw, hsplit, trimRight_append]
      rcases htb : trimRight ('\n' :: tail0) with _ | ⟨d, r'⟩
      · decide
      · rfl
    · rw [Bool.or_eq_true]
      refine Or.inr ?_
      have hassoc : ((pre' ++ ['\n']) ++ ("Error: disk full\n".toList ++ tail0)) =
          pre' ++ ('\n' :: ("Error: disk full\n".toList ++ tail0)) := by
        rw [List.append_assoc]
        rfl
      rw [hassoc]
      rw [show toLowerL (pre' ++ ('\n' :: ("Error: disk full\n".toList ++ tail0))) =
          toLowerL pre' ++ toLowerL ('\n' :: ("Error: disk full\n".toList ++ tail0)) from
          List.map_append _ _ _]
      exact hasSub_append_right _ _ _ rfl
  have hmatch : findErrorMatch (pre ++ ("Error: disk full\n".toList ++ tail0)) =
      some ("disk full".toList) := by
    rw [findErrorMatch_append pre _ hfirst]
    rfl
  unfold checkCopilotErrors
  dsimp only
  rw [h1, h2]
  simp only [Bool.or_self, Bool.false_eq_true, if_false]
  rw [h3, h4]
  simp only [Bool.or_self, Bool.false_eq_true, if_false]
  rw [h5, h6]
  simp only [Bool.or_self, Bool.false_eq_true, if_false]
  rw [hguard]
  simp only [if_true]
  rw [hmatch]
  decide

/-- C6 (amended): error classification runs in priority order (structured
JSON first, then the adapter's plain-text checks, then the exit code), so
for any captured output containing the line "Error: disk full" at line
start or immediately after a newline, in which no structured JSON error is
detected, no authentication, rate-limit or network keyword occurs
anywhere, and no earlier scan position of the output matches the
case-insensitive error: prefix (the disk-full line is the first such
occurrence), execute returns success = false with error equal to
"disk full" (the trimmed remainder of that line), regardless of the
process exit code.  The original unconditional form fails whenever a
higher-priority pattern also matches the output. -/
theorem error_line_extraction_amended (pre tail0 : List Char) (ec : Int) (d : Nat)
    (hpos : pre = [] ∨ ∃ pre', pre = pre' ++ ['\n'])
    (hjson : truthyOpt (checkForErrors
      (pre ++ ("Error: disk full\n".toList ++ tail0))) = false)
    (h1 : hasSub (toLowerL (pre ++ ("Error: disk full\n".toList ++ tail0)))
      ("no authentication".toList) = false)
    (h2 : hasSub (toLowerL (pre ++ ("Error: disk full\n".toList ++ tail0)))
      ("not authenticated".toList) = false)
    (h3 : hasSub (toLowerL (pre ++ ("Error: disk full\n".toList ++ tail0)))
      ("rate limit".toList) = false)
    (h4 : hasSub (toLowerL (pre ++ ("Error: disk full\n".toList ++ tail0)))
      ("too many requests".toList) = false)
    (h5 : hasSub (toLowerL (pre ++ ("Error: disk full\n".toList ++ tail0)))
      ("network error".toList) = false)
    (h6 : hasSub (toLowerL (pre ++ ("Error: disk full\n".toList ++ tail0)))
      ("connection refused".toList) = false)
    (hfirst : ∀ suf ∈ List.tails pre, suf ≠ [] →
      isPrefixL errKey (toLowerL (suf ++ ("Error: disk full\n".toList ++ tail0))) = false) :
    (copilotExecute ⟨pre ++ ("Error: disk full\n".toList ++ tail0), [], ec⟩ d).success
      = false ∧
    (copilotExecute ⟨pre ++ ("Error: disk full\n".toList ++ tail0), [], ec⟩ d).error =
      some ("disk full".toList) := by
  have hcc := checkCopilotErrors_diskFull pre tail0 hpos h1 h2 h3 h4 h5 h6 hfirst
  unfold copilotExecute copilotClassify
  simp only [List.append_nil]
  rw [if_neg (by rw [hjson]; exact Bool.false_ne_true)]
  rw [hcc]
  rw [if_pos (by rfl)]
  exact ⟨rfl, rfl⟩

/-- C6 witness: the amended statement for the disk-full line occurring
after a newline ("hello" line first) with a nonzero exit code. -/
theorem error_line_extraction_amended_witness :
    (copilotExecute ⟨"hello\n".toList ++ ("Error: disk full\n".toList ++ []),
      [], 7⟩ 0).success = false ∧
    (copilotExecute ⟨"hello\n".toList ++ ("Error: disk full\n".toList ++ []),
      [], 7⟩ 0).error = some ("disk full".toList) :=
  error_line_extraction_amended "hello\n".toList [] 7 0
    (Or.inr ⟨"hello".toList, by decide⟩) (by decide) (by decide) (by decide)
    (by decide) (by decide) (by decide) (by decide) (by decide)
